import Mathlib

/-!
Shallow embedding of the msprime mutation-generator and haplotype-generator
sources (`lib/hapgen.c` and the two mutation-generator translation units).

Modelling conventions:
* C `double` genomic positions and node times are modelled as `ℚ`; the claims
  under study depend only on the ordered-field structure of the position
  values (comparisons, interval membership), never on rounding.
* 64-bit machine words of the haplotype matrix are modelled as `Nat` with
  explicit bit operations (`testBit`, `|||`, `<<<`); every bit index used is
  `< 64`, so no wraparound arises.
* `assert(...)` in the C source aborts the process when false; an abort is
  modelled as an error return (`Err.assertFailed`), so a non-error result of a
  modelled function corresponds exactly to a C run in which every assertion
  held.
* Randomness (`gsl_ran_poisson`, `gsl_ran_flat`, `gsl_rng_uniform_int`) is
  modelled by explicit draw streams handed to `mutgen_generate`; the GSL
  contracts (a flat draw lies in `[left, right)` only when the assertion
  passes, a uniform integer draw is reduced modulo the number of choices) are
  part of the stream interpretation.
* `malloc`/`calloc`/`block_allocator` failures for fixed-size allocations are
  abstracted as successes; growable output tables carry an optional capacity
  (`max_rows`) modelling memory exhaustion during `realloc`-backed growth.
-/

/-- Error codes mirroring the `MSP_ERR_*` constants used by the two sources. -/
inductive Err where
  | noMemory
  | badParamValue
  | nonbinaryMutationsUnsupported
  | outOfBounds
  | inconsistentMutations
  | leafListFailed
  | assertFailed
  | outOfDraws
  deriving DecidableEq, Repr

namespace Hapgen

/-- `HG_WORD_SIZE` from `hapgen.c`. -/
def HG_WORD_SIZE : Nat := 64

/-- One `mutation_t` record as seen by `hapgen.c`: a list of nodes
(`mut->nodes`, length `mut->num_nodes`) and the mutation's column index
(`mut->index`). -/
structure HgMutation where
  nodes : List Nat
  index : Nat

/-- One marginal (local) tree of the external sparse-tree iterator: the
mutations recorded on this tree (`t->mutations`), and the leaf-list query
`sparse_tree_get_leaf_list` for a node: `none` models a nonzero error return,
`some ws` the traversal from the head pointer to the tail marker (so `some []`
models `w == NULL`). -/
structure LocalTree where
  mutations : List HgMutation
  leafList : Nat → Option (List Nat)

/-- The read-only tree-sequence view consumed by `hapgen_alloc`:
`tree_sequence_get_sample_size`, `tree_sequence_get_num_mutations`,
`tree_sequence->mutation_types.num_records`, and the sequence of local trees
that `sparse_tree_first`/`sparse_tree_next` iterates. -/
structure TreeSeq where
  sample_size : Nat
  num_mutations : Nat
  num_mutation_type_records : Nat
  trees : List LocalTree

/-- The built generator state (`hapgen_t`): the bit matrix is a flat list of
64-bit words, row-major with `words_per_row` words per sample row. -/
structure hapgen_t where
  sample_size : Nat
  num_mutations : Nat
  words_per_row : Nat
  haplotype_matrix : List Nat
  deriving DecidableEq, Repr

/-- Read the matrix bit for `(row, column)` exactly as the C code addresses
it: word `column / 64` of row `row`, bit `column % 64`. -/
def hgBit (m : List Nat) (wpr row column : Nat) : Bool :=
  (m.getD (row * wpr + column / HG_WORD_SIZE) 0).testBit (column % HG_WORD_SIZE)

/-- `hapgen_set_bit` (hapgen.c:56-73): locate the word, fail with
`MSP_ERR_INCONSISTENT_MUTATIONS` if the bit is already set, otherwise OR the
bit in.  The `assert(word < self->words_per_row)` is modelled as
`Err.assertFailed`. -/
def hapgen_set_bit (m : List Nat) (wpr row column : Nat) :
    Except Err (List Nat) :=
  let word := column / HG_WORD_SIZE
  let bit := column % HG_WORD_SIZE
  let index := row * wpr + word
  if ¬ word < wpr then .error .assertFailed
  else if (m.getD index 0).testBit bit then .error .inconsistentMutations
  else .ok (m.set index ((m.getD index 0) ||| (1 <<< bit)))

/-- The inner leaf-list walk of `hapgen_apply_tree_mutation`: set the bit of
every sample in the traversal list, in order. -/
def setLeafBits (wpr column : Nat) : List Nat → List Nat → Except Err (List Nat)
  | [], m => .ok m
  | w :: ws, m =>
    match hapgen_set_bit m wpr w column with
    | .error e => .error e
    | .ok m' => setLeafBits wpr column ws m'

/-- The per-node loop of `hapgen_apply_tree_mutation` (hapgen.c:75-103): for
each node of the mutation, query the leaf list and set this mutation's column
for every listed sample. -/
def applyNodes (tree : LocalTree) (wpr column : Nat) :
    List Nat → List Nat → Except Err (List Nat)
  | [], m => .ok m
  | n :: ns, m =>
    match tree.leafList n with
    | none => .error .leafListFailed
    | some ws =>
      match setLeafBits wpr column ws m with
      | .error e => .error e
      | .ok m' => applyNodes tree wpr column ns m'

/-- `hapgen_apply_tree_mutation` for one mutation record. -/
def hapgen_apply_tree_mutation (tree : LocalTree) (wpr : Nat)
    (mu : HgMutation) (m : List Nat) : Except Err (List Nat) :=
  applyNodes tree wpr mu.index mu.nodes m

/-- The per-tree mutation loop of `hapgen_generate_all_haplotypes`. -/
def applyTreeMutations (tree : LocalTree) (wpr : Nat) :
    List HgMutation → List Nat → Except Err (List Nat)
  | [], m => .ok m
  | mu :: muts, m =>
    match hapgen_apply_tree_mutation tree wpr mu m with
    | .error e => .error e
    | .ok m' => applyTreeMutations tree wpr muts m'

/-- `hapgen_generate_all_haplotypes` (hapgen.c:105-122): iterate the local
trees in order, applying every mutation of each tree. -/
def hapgen_generate_all_haplotypes (wpr : Nat) :
    List LocalTree → List Nat → Except Err (List Nat)
  | [], m => .ok m
  | t :: ts, m =>
    match applyTreeMutations t wpr t.mutations m with
    | .error e => .error e
    | .ok m' => hapgen_generate_all_haplotypes wpr ts m'

/-- `hapgen_alloc` (hapgen.c:124-162): reject a tree sequence carrying
mutations whose mutation-type table does not have exactly one record; then
build the zeroed `sample_size × words_per_row` word matrix with
`words_per_row = num_mutations / 64 + 1`, and fill it by iterating all local
trees.  Fixed-size allocation failures are abstracted as successes. -/
def hapgen_alloc (ts : TreeSeq) : Except Err hapgen_t :=
  if ts.num_mutations > 0 ∧ ts.num_mutation_type_records ≠ 1 then
    .error .nonbinaryMutationsUnsupported
  else
    let words_per_row := ts.num_mutations / HG_WORD_SIZE + 1
    let m0 := List.replicate (words_per_row * ts.sample_size) 0
    match hapgen_generate_all_haplotypes words_per_row ts.trees m0 with
    | .error e => .error e
    | .ok m =>
      .ok ⟨ts.sample_size, ts.num_mutations, words_per_row, m⟩

/-- The C cast `(node_id_t) self->sample_size`: a `size_t` value truncated to
a signed 32-bit integer. -/
def castNodeId (n : Nat) : Int :=
  let m : Nat := n % 2 ^ 32
  if m < 2 ^ 31 then (m : Int) else (m : Int) - 2 ^ 32

/-- The word index `((size_t) sample_id) * self->words_per_row + j` computed at
hapgen.c:190; the `size_t` cast of a (possibly negative) `node_id_t` is the
value modulo `2^64`. -/
def hapgen_word_index (sample_id : Int) (wpr j : Nat) : Nat :=
  (sample_id % (2 ^ 64 : Int)).toNat * wpr + j

/-- `hapgen_get_haplotype` (hapgen.c:177-201).  The double loop over words
`j < words_per_row` and bits `k < 64` writes character `l = j*64 + k` from bit
`k` of word `hapgen_word_index sample_id words_per_row j`; it is modelled as a
single map over the flat character index `l` (with `j = l / 64`,
`k = l % 64`).  Writing `'\0'` at offset `num_mutations` and returning the C
string is modelled by truncating the character list to `num_mutations`.
Out-of-bounds matrix words read as `0` here; the C code performs the
unchecked memory access instead (see `hapgen_word_index`). -/
def hapgen_get_haplotype (self : hapgen_t) (sample_id : Int) :
    Except Err (List Char) :=
  if sample_id ≥ castNodeId self.sample_size then .error .outOfBounds
  else
    let chars := (List.range (self.words_per_row * HG_WORD_SIZE)).map fun l =>
      let word := self.haplotype_matrix.getD
        (hapgen_word_index sample_id self.words_per_row (l / HG_WORD_SIZE)) 0
      if word.testBit (l % HG_WORD_SIZE) then '1' else '0'
    .ok (chars.take self.num_mutations)

end Hapgen

namespace Mutgen

/-- `MSP_ALPHABET_BINARY`. -/
def MSP_ALPHABET_BINARY : Int := 0
/-- `MSP_ALPHABET_NUCLEOTIDE`. -/
def MSP_ALPHABET_NUCLEOTIDE : Int := 1
/-- `MSP_NULL_MUTATION`. -/
def MSP_NULL_MUTATION : Int := -1

/-- `mutation_type_t`: a pair of one-character ancestral/derived states
(the C source stores them as one-character strings). -/
structure mutation_type_t where
  ancestral_state : Char
  derived_state : Char
  deriving DecidableEq, Repr

/-- `binary_mutation_types`. -/
def binary_mutation_types : List mutation_type_t := [⟨'0', '1'⟩]

/-- `acgt_mutation_types`: the 12 ordered pairs of distinct nucleotides. -/
def acgt_mutation_types : List mutation_type_t :=
  [⟨'A', 'C'⟩, ⟨'A', 'G'⟩, ⟨'A', 'T'⟩,
   ⟨'C', 'A'⟩, ⟨'C', 'G'⟩, ⟨'C', 'T'⟩,
   ⟨'G', 'A'⟩, ⟨'G', 'C'⟩, ⟨'G', 'T'⟩,
   ⟨'T', 'A'⟩, ⟨'T', 'C'⟩, ⟨'T', 'G'⟩]

/-- A `mutation_t` record built by `mutgen_add_mutation`. -/
structure mutation_rec_t where
  derived_state : Char
  node : Int
  parent : Int
  deriving DecidableEq, Repr

/-- A `site_t` record built by `mutgen_add_mutation`: position, ancestral
state and the site's mutation list (always a single root mutation here). -/
structure site_rec_t where
  position : ℚ
  ancestral_state : Char
  mutations : List mutation_rec_t
  deriving DecidableEq, Repr

/-- The AVL tree of sites keyed by position (`self->sites`, comparator
`cmp_site`), modelled by its in-order traversal: a list of sites kept sorted
by strictly increasing position.  `avl_insert_node` is only ever called after
a failed `avl_search`, so keys are unique. -/
def avl_insert (s : site_rec_t) : List site_rec_t → List site_rec_t
  | [] => [s]
  | t :: ts => if s.position < t.position then s :: t :: ts else t :: avl_insert s ts

/-- `avl_search(&self->sites, &position)`: does a site with this exact
position exist (comparator `cmp_site` returns 0 exactly on equality)? -/
def avl_search (sites : List site_rec_t) (position : ℚ) : Bool :=
  sites.any fun s => s.position = position

/-- `mutgen_t` for the AVL-tree mutation generator: configuration fixed at
construction.  The gsl rng handle is external; the block allocator is
represented by its configured block size. -/
structure mutgen_t where
  alphabet : Int
  mutation_rate : ℚ
  block_size : Nat
  deriving DecidableEq, Repr

/-- `mutgen_alloc` (AVL version): reject an alphabet that is neither
`MSP_ALPHABET_BINARY` nor `MSP_ALPHABET_NUCLEOTIDE` with
`MSP_ERR_BAD_PARAM_VALUE`; a zero `block_size` is replaced by the default
8192, and the result is floored at 128 (`MSP_MAX(block_size, 128)`).
`block_allocator_alloc` failure is abstracted as success. -/
def mutgen_alloc (mutation_rate : ℚ) (alphabet : Int) (block_size : Nat) :
    Except Err mutgen_t :=
  if ¬ (alphabet = MSP_ALPHABET_BINARY ∨ alphabet = MSP_ALPHABET_NUCLEOTIDE) then
    .error .badParamValue
  else
    let block_size := if block_size = 0 then 8192 else block_size
    let block_size := max block_size 128
    .ok ⟨alphabet, mutation_rate, block_size⟩

/-- The first (table-based) mutation generator's `mutgen_t`; only the field
touched by `mutgen_set_mutation_block_size` is carried here (the function
reads and writes nothing else of the struct). -/
structure mutgen_v1_t where
  mutation_block_size : Nat
  deriving DecidableEq, Repr

/-- `mutgen_set_mutation_block_size` (first translation unit, lines 108-119):
a zero block size is rejected with `MSP_ERR_BAD_PARAM_VALUE`; otherwise the
field is updated. -/
def mutgen_set_mutation_block_size (self : mutgen_v1_t)
    (mutation_block_size : Nat) : Except Err mutgen_v1_t :=
  if mutation_block_size = 0 then .error .badParamValue
  else .ok { self with mutation_block_size := mutation_block_size }

/-- `mutgen_add_mutation` (AVL version): allocate a site with a single root
mutation (`parent = MSP_NULL_MUTATION`) and insert it into the site index.
Arena failure is abstracted as success (the claims under study condition on
runs in which the arena does not fail). -/
def mutgen_add_mutation (sites : List site_rec_t) (node : Int) (position : ℚ)
    (ancestral_state derived_state : Char) : List site_rec_t :=
  avl_insert ⟨position, ancestral_state,
    [⟨derived_state, node, MSP_NULL_MUTATION⟩]⟩ sites

/-- One row of the output site table. -/
structure site_row_t where
  position : ℚ
  ancestral_state : Char
  deriving DecidableEq, Repr

/-- One row of the output mutation table. -/
structure mutation_row_t where
  site : Nat
  node : Int
  parent : Int
  derived_state : Char
  deriving DecidableEq, Repr

/-- The growable output site table.  `max_rows = some c` models the memory
budget available to `realloc`-backed growth: `site_table_add_row` fails with
`MSP_ERR_NO_MEMORY` once `c` rows are held; `none` models unbounded memory. -/
structure site_table_t where
  rows : List site_row_t
  max_rows : Option Nat
  deriving DecidableEq, Repr

/-- The growable output mutation table (same memory model). -/
structure mutation_table_t where
  rows : List mutation_row_t
  max_rows : Option Nat
  deriving DecidableEq, Repr

/-- `site_table_add_row`: returns the new row's id (its index) on success. -/
def site_table_add_row (t : site_table_t) (row : site_row_t) :
    Except Err (site_table_t × Nat) :=
  match t.max_rows with
  | some cap =>
    if cap ≤ t.rows.length then .error .noMemory
    else .ok ({ t with rows := t.rows ++ [row] }, t.rows.length)
  | none => .ok ({ t with rows := t.rows ++ [row] }, t.rows.length)

/-- `mutation_table_add_row`. -/
def mutation_table_add_row (t : mutation_table_t) (row : mutation_row_t) :
    Except Err mutation_table_t :=
  match t.max_rows with
  | some cap =>
    if cap ≤ t.rows.length then .error .noMemory
    else .ok { t with rows := t.rows ++ [row] }
  | none => .ok { t with rows := t.rows ++ [row] }

/-- `site_table_clear`: drop all rows, keep the memory model. -/
def site_table_clear (t : site_table_t) : site_table_t :=
  { t with rows := [] }

/-- `mutation_table_clear`. -/
def mutation_table_clear (t : mutation_table_t) : mutation_table_t :=
  { t with rows := [] }

/-- The inner row loop of `mutgen_populate_tables` over one site's mutation
records.  The table is caller-owned and mutated in place, so the rows added
before a failure survive: the pair carries the final table state in both
outcomes. -/
def addMutationRows (site_id : Nat) (mt : mutation_table_t) :
    List mutation_rec_t → (Except Err Unit × mutation_table_t)
  | [] => (.ok (), mt)
  | mu :: mus =>
    match mutation_table_add_row mt
      ⟨site_id, mu.node, mu.parent, mu.derived_state⟩ with
    | .error e => (.error e, mt)
    | .ok mt' => addMutationRows site_id mt' mus

/-- `mutgen_populate_tables` (AVL version, lines 400-432): walk the site
index in ascending position order, appending one site row and that site's
mutation rows; the site id handed to each mutation row is the id returned by
`site_table_add_row`.  On failure the tables mutated so far are returned
alongside the error, mirroring the in-place C mutation of caller-owned
tables. -/
def mutgen_populate_tables (st : site_table_t) (mt : mutation_table_t) :
    List site_rec_t → (Except Err Unit × site_table_t × mutation_table_t)
  | [] => (.ok (), st, mt)
  | s :: rest =>
    match site_table_add_row st ⟨s.position, s.ancestral_state⟩ with
    | .error e => (.error e, st, mt)
    | .ok (st', site_id) =>
      match addMutationRows site_id mt s.mutations with
      | (.error e, mt') => (.error e, st', mt')
      | (.ok _, mt') => mutgen_populate_tables st' mt' rest

/-- The random draws consumed by one `mutgen_generate` call:
`branch_mutation_counts` is the per-edge `gsl_ran_poisson` outcome stream,
`positions` the `gsl_ran_flat` outcome stream (consumed by the rejection
loop), `types` the `gsl_rng_uniform_int` outcome stream.  The streams are
finite lists; exhausting one models a run of the unbounded C loop that never
terminates (`Err.outOfDraws` — such a run produces no C return at all). -/
structure gen_draws_t where
  branch_mutation_counts : List Nat
  positions : List ℚ
  types : List Nat

/-- The rejection-sampling loop of `mutgen_generate` (lines 484-487): draw
positions until one is absent from the site index. -/
def rejection_sample (sites : List site_rec_t) :
    List ℚ → Option (ℚ × List ℚ)
  | [] => none
  | p :: ps => if avl_search sites p then rejection_sample sites ps else some (p, ps)

/-- The per-branch mutation loop of `mutgen_generate` (lines 481-497): place
`n` mutations on the branch above `child` spanning `[left, right)`.  For each
one: rejection-sample a fresh position, check the flat-draw assertion
`left <= position && position < right`, draw a mutation type uniformly from
the alphabet's table (the gsl uniform-integer contract is embedded as a
reduction modulo the table length), and insert the new site. -/
def branch_loop (mutation_types : List mutation_type_t) (child : Int)
    (left right : ℚ) :
    Nat → List site_rec_t → List ℚ → List Nat →
    Except Err (List site_rec_t × List ℚ × List Nat)
  | 0, sites, ps, ts => .ok (sites, ps, ts)
  | n + 1, sites, ps, ts =>
    match rejection_sample sites ps with
    | none => .error .outOfDraws
    | some (position, ps') =>
      if ¬ (left ≤ position ∧ position < right) then .error .assertFailed
      else
        match ts with
        | [] => .error .outOfDraws
        | t :: ts' =>
          let type := t % mutation_types.length
          let mt := mutation_types.getD type ⟨'0', '0'⟩
          branch_loop mutation_types child left right n
            (mutgen_add_mutation sites child position
              mt.ancestral_state mt.derived_state) ps' ts'

/-- An input edge row (`edge_table_t` columns). -/
structure edge_t where
  left : ℚ
  right : ℚ
  parent : Int
  child : Int
  deriving DecidableEq, Repr

/-- The input node table: per-node times (`num_rows = time.length`). -/
structure node_table_t where
  time : List ℚ
  deriving DecidableEq, Repr

/-- The edge loop of `mutgen_generate` (lines 471-498): for each edge, check
the `child` bound assertion, compute the expected count `mu` (which only
parameterises the Poisson draw, supplied here by the draw stream) and run the
branch loop. -/
def edge_loop (mutation_types : List mutation_type_t) (nodes : node_table_t) :
    List edge_t → List Nat → List site_rec_t → List ℚ → List Nat →
    Except Err (List site_rec_t × List ℚ × List Nat)
  | [], _, sites, ps, ts => .ok (sites, ps, ts)
  | e :: es, counts, sites, ps, ts =>
    let left := e.left
    let right := e.right
    let _distance := right - left
    let child := e.child
    if ¬ (0 ≤ child ∧ child < (nodes.time.length : Int)) then .error .assertFailed
    else
      let _branch_length := nodes.time.getD e.parent.toNat 0 - nodes.time.getD child.toNat 0
      let branch_mutations := counts.headD 0
      match branch_loop mutation_types child left right branch_mutations sites ps ts with
      | .error e => .error e
      | .ok (sites', ps', ts') =>
        edge_loop mutation_types nodes es counts.tail sites' ps' ts'

/-- The table collection handed to `mutgen_generate`: input node and edge
tables, output site and mutation tables. -/
structure table_collection_t where
  nodes : node_table_t
  edges : List edge_t
  sites : site_table_t
  mutations : mutation_table_t

/-- `mutgen_generate` (AVL version, lines 434-505): clear the site index and
arena, clear both output tables, select the alphabet's mutation-type table,
run the edge loop, then emit the site index in ascending position order via
`mutgen_populate_tables`.  The returned pair carries the final state of the
caller-owned output tables on both success and failure. -/
def mutgen_generate (self : mutgen_t) (tables : table_collection_t)
    (draws : gen_draws_t) :
    Except Err Unit × site_table_t × mutation_table_t :=
  let st := site_table_clear tables.sites
  let mt := mutation_table_clear tables.mutations
  let mutation_types :=
    if self.alphabet = 0 then binary_mutation_types else acgt_mutation_types
  match edge_loop mutation_types tables.nodes tables.edges
      draws.branch_mutation_counts [] draws.positions draws.types with
  | .error e => (.error e, st, mt)
  | .ok (sites, _, _) => mutgen_populate_tables st mt sites

end Mutgen

namespace Hapgen

/-- The spec's stated formula for the matrix row width:
`words_per_row = ceil(num_mutations / WORD_BITS)` (spec §3).  Written from
the spec's words, to be compared with the width `hapgen_alloc` computes. -/
def words_per_row_spec (num_mutations : Nat) : Nat :=
  (num_mutations + HG_WORD_SIZE - 1) / HG_WORD_SIZE

lemma hapgen_set_bit_length {m m' : List Nat} {wpr row col : Nat}
    (h : hapgen_set_bit m wpr row col = .ok m') : m'.length = m.length := by
  simp only [hapgen_set_bit] at h
  split at h
  · exact absurd h (by simp)
  · split at h
    · exact absurd h (by simp)
    · simpa using congrArg List.length (Except.ok.inj h).symm

lemma setLeafBits_length {wpr col : Nat} :
    ∀ {ws : List Nat} {m m' : List Nat},
      setLeafBits wpr col ws m = .ok m' → m'.length = m.length
  | [], m, m', h => by
    have hm : m = m' := by simpa [setLeafBits] using h
    rw [← hm]
  | w :: ws, m, m', h => by
    simp only [setLeafBits] at h
    split at h
    · exact absurd h (by simp)
    next m₁ hs => exact (setLeafBits_length h).trans (hapgen_set_bit_length hs)

lemma applyNodes_length {tree : LocalTree} {wpr col : Nat} :
    ∀ {ns : List Nat} {m m' : List Nat},
      applyNodes tree wpr col ns m = .ok m' → m'.length = m.length
  | [], m, m', h => by
    have hm : m = m' := by simpa [applyNodes] using h
    rw [← hm]
  | n :: ns, m, m', h => by
    simp only [applyNodes] at h
    split at h
    · exact absurd h (by simp)
    next ws hl =>
      split at h
      · exact absurd h (by simp)
      next m₁ hs => exact (applyNodes_length h).trans (setLeafBits_length hs)

lemma applyTreeMutations_length {tree : LocalTree} {wpr : Nat} :
    ∀ {mus : List HgMutation} {m m' : List Nat},
      applyTreeMutations tree wpr mus m = .ok m' → m'.length = m.length
  | [], m, m', h => by
    have hm : m = m' := by simpa [applyTreeMutations] using h
    rw [← hm]
  | mu :: mus, m, m', h => by
    simp only [applyTreeMutations] at h
    split at h
    · exact absurd h (by simp)
    next m₁ ha =>
      exact (applyTreeMutations_length h).trans (applyNodes_length ha)

lemma hapgen_generate_all_haplotypes_length {wpr : Nat} :
    ∀ {trees : List LocalTree} {m m' : List Nat},
      hapgen_generate_all_haplotypes wpr trees m = .ok m' → m'.length = m.length
  | [], m, m', h => by
    have hm : m = m' := by simpa [hapgen_generate_all_haplotypes] using h
    rw [← hm]
  | t :: ts, m, m', h => by
    simp only [hapgen_generate_all_haplotypes] at h
    split at h
    · exact absurd h (by simp)
    next m₁ ha =>
      exact (hapgen_generate_all_haplotypes_length h).trans
        (applyTreeMutations_length ha)

/-- Shape of a successful `hapgen_alloc`: the generator fields come from the
tree sequence, `words_per_row = num_mutations / 64 + 1`, and the matrix is
the filled `words_per_row * sample_size`-word block. -/
lemma hapgen_alloc_ok {ts : TreeSeq} {h : hapgen_t}
    (ha : hapgen_alloc ts = .ok h) :
    h.sample_size = ts.sample_size ∧ h.num_mutations = ts.num_mutations ∧
    h.words_per_row = ts.num_mutations / HG_WORD_SIZE + 1 ∧
    h.haplotype_matrix.length = h.words_per_row * h.sample_size := by
  simp only [hapgen_alloc] at ha
  split at ha
  · exact absurd ha (by simp)
  · split at ha
    · exact absurd ha (by simp)
    next m hg =>
      cases Except.ok.inj ha
      refine ⟨rfl, rfl, rfl, ?_⟩
      simpa using hapgen_generate_all_haplotypes_length hg

/-- An in-range `get_haplotype` call takes the non-error branch. -/
lemma hapgen_get_haplotype_ok {self : hapgen_t} {sample_id : Int}
    (h : sample_id < castNodeId self.sample_size) :
    ∃ s, hapgen_get_haplotype self sample_id = .ok s := by
  simp only [hapgen_get_haplotype]
  rw [if_neg (not_le.mpr h)]
  exact ⟨_, rfl⟩

/-- C2 counterexample: the tree sequence with 64 mutations and a one-record
mutation-type table is accepted, and `hapgen_alloc` builds it with
`words_per_row = 2`, while the spec's `ceil(num_mutations / WORD_BITS)`
formula gives `1`. -/
theorem words_per_row_not_ceil :
    hapgen_alloc ⟨1, 64, 1, []⟩ = .ok ⟨1, 64, 2, List.replicate 2 0⟩ ∧
    words_per_row_spec 64 ≠ 2 := by
  exact ⟨rfl, by decide⟩

/-- C2 (amended): for every tree sequence accepted by `hapgen_alloc`, the
`words_per_row` field of the built generator equals
`num_mutations / WORD_BITS + 1` (floor division plus one), not the ceiling. -/
theorem words_per_row_eq_div_succ (ts : TreeSeq) (h : hapgen_t)
    (ha : hapgen_alloc ts = .ok h) :
    h.words_per_row = ts.num_mutations / HG_WORD_SIZE + 1 :=
  (hapgen_alloc_ok ha).2.2.1

/-- C2 witness: the amended claim evaluated on a concrete accepted tree
sequence. -/
theorem words_per_row_eq_div_succ_witness :
    (⟨1, 64, 2, List.replicate 2 0⟩ : hapgen_t).words_per_row = 64 / HG_WORD_SIZE + 1 :=
  words_per_row_eq_div_succ ⟨1, 64, 1, []⟩ _ rfl

/-- C4: (a) `hapgen_set_bit` on a bit that is already set fails with the
inconsistent-mutations error, and (b) any error of the haplotype build loop
is returned unchanged by `hapgen_alloc` to the caller — it is neither
swallowed nor retried. -/
theorem inconsistent_mutation_aborts_build :
    (∀ (m : List Nat) (wpr row col : Nat), col / HG_WORD_SIZE < wpr →
      hgBit m wpr row col = true →
      hapgen_set_bit m wpr row col = .error .inconsistentMutations) ∧
    (∀ (ts : TreeSeq) (e : Err),
      ¬ (ts.num_mutations > 0 ∧ ts.num_mutation_type_records ≠ 1) →
      hapgen_generate_all_haplotypes (ts.num_mutations / HG_WORD_SIZE + 1) ts.trees
        (List.replicate ((ts.num_mutations / HG_WORD_SIZE + 1) * ts.sample_size) 0)
        = .error e →
      hapgen_alloc ts = .error e) := by
  constructor
  · intro m wpr row col hcol hbit
    simp only [hapgen_set_bit]
    rw [if_neg (by simpa using hcol)]
    rw [if_pos (by simpa [hgBit] using hbit)]
  · intro ts e hacc hgen
    simp only [hapgen_alloc]
    rw [if_neg hacc, hgen]

/-- C4 witness: a matrix with bit 0 already set yields the
inconsistent-mutations error from `hapgen_set_bit`, and a one-sample tree
sequence whose single mutation's leaf list names sample 0 twice makes the
build — and therefore `hapgen_alloc` — fail with that error. -/
theorem inconsistent_mutation_aborts_build_witness :
    hapgen_set_bit [1] 1 0 0 = .error .inconsistentMutations ∧
    hapgen_alloc ⟨1, 1, 1, [⟨[⟨[0], 0⟩], fun _ => some [0, 0]⟩]⟩
      = .error .inconsistentMutations :=
  ⟨inconsistent_mutation_aborts_build.1 [1] 1 0 0 (by decide) (by decide),
   inconsistent_mutation_aborts_build.2 _ .inconsistentMutations (by simp) rfl⟩

/-- C7: on a built generator over a tree sequence with fewer than `2^31`
samples, `get_haplotype` at `sample_id = sample_count` fails with the
out-of-bounds error, and (when there is at least one sample)
`sample_id = sample_count - 1` succeeds. -/
theorem get_haplotype_bounds (ts : TreeSeq) (h : hapgen_t)
    (ha : hapgen_alloc ts = .ok h) (hsmall : ts.sample_size < 2 ^ 31) :
    hapgen_get_haplotype h (h.sample_size : Int) = .error .outOfBounds ∧
    (0 < h.sample_size →
      ∃ s, hapgen_get_haplotype h ((h.sample_size : Int) - 1) = .ok s) := by
  obtain ⟨hss, -, -, -⟩ := hapgen_alloc_ok ha
  have hcast : castNodeId h.sample_size = (h.sample_size : Int) := by
    unfold castNodeId
    rw [Nat.mod_eq_of_lt (by omega)]
    rw [if_pos (by exact_mod_cast by omega)]
  constructor
  · simp only [hapgen_get_haplotype]
    rw [hcast, if_pos le_rfl]
  · intro hpos
    exact hapgen_get_haplotype_ok (by rw [hcast]; omega)

/-- C7 witness: a concrete two-sample generator. -/
theorem get_haplotype_bounds_witness :
    hapgen_get_haplotype ⟨2, 1, 1, [1, 0]⟩ 2 = .error .outOfBounds ∧
    (0 < (2 : Nat) → ∃ s, hapgen_get_haplotype ⟨2, 1, 1, [1, 0]⟩ 1 = .ok s) := by
  have := get_haplotype_bounds
    ⟨2, 1, 1, [⟨[⟨[0], 0⟩], fun n => if n = 0 then some [0] else some []⟩]⟩
    ⟨2, 1, 1, [1, 0]⟩ rfl (by decide)
  exact ⟨this.1, fun _ => this.2 (by decide)⟩

/-- C8: `hapgen_get_haplotype` checks only the upper bound.  For every
negative (32-bit) `sample_id` against a built generator with a realistic
sample count, the out-of-bounds branch is not taken, and already the first
matrix word index the row loop computes lies at or beyond the end of the
haplotype matrix — the access is unguarded. -/
theorem get_haplotype_negative_unchecked (ts : TreeSeq) (h : hapgen_t)
    (sample_id : Int) (ha : hapgen_alloc ts = .ok h)
    (hsmall : ts.sample_size < 2 ^ 31)
    (hlo : -2 ^ 31 ≤ sample_id) (hneg : sample_id < 0) :
    hapgen_get_haplotype h sample_id ≠ .error .outOfBounds ∧
    h.haplotype_matrix.length ≤ hapgen_word_index sample_id h.words_per_row 0 := by
  obtain ⟨hss, -, hwpr, hlen⟩ := hapgen_alloc_ok ha
  have hcast : castNodeId h.sample_size = (h.sample_size : Int) := by
    unfold castNodeId
    rw [Nat.mod_eq_of_lt (by omega)]
    rw [if_pos (by exact_mod_cast by omega)]
  constructor
  · simp only [hapgen_get_haplotype]
    rw [hcast, if_neg (by omega)]
    simp
  · have hv : h.sample_size ≤ (sample_id % (2 ^ 64 : Int)).toNat := by
      omega
    calc h.haplotype_matrix.length = h.words_per_row * h.sample_size := hlen
      _ ≤ h.words_per_row * (sample_id % (2 ^ 64 : Int)).toNat :=
          Nat.mul_le_mul_left _ hv
      _ = (sample_id % (2 ^ 64 : Int)).toNat * h.words_per_row + 0 := by ring
      _ = hapgen_word_index sample_id h.words_per_row 0 := rfl

/-- C8 witness: `sample_id = -1` against a concrete one-sample generator. -/
theorem get_haplotype_negative_unchecked_witness :
    hapgen_get_haplotype ⟨1, 0, 1, [0]⟩ (-1) ≠ .error .outOfBounds ∧
    (⟨1, 0, 1, [0]⟩ : hapgen_t).haplotype_matrix.length ≤
      hapgen_word_index (-1) 1 0 :=
  get_haplotype_negative_unchecked ⟨1, 0, 1, []⟩ ⟨1, 0, 1, [0]⟩ (-1)
    rfl (by decide) (by decide) (by decide)

/-- C9: `hapgen_alloc` applies the non-binary rejection only when
`num_mutations > 0`: a tree sequence with zero mutations (hence no mutations
on any local tree) is accepted whatever the mutation-type table holds, and
every in-range `get_haplotype` call on the built generator returns the empty
string. -/
theorem zero_mutations_alloc_succeeds (ts : TreeSeq)
    (hzero : ts.num_mutations = 0)
    (hempty : ∀ t ∈ ts.trees, t.mutations = []) :
    ∃ h, hapgen_alloc ts = .ok h ∧
      ∀ sample_id : Int, 0 ≤ sample_id →
        sample_id < castNodeId ts.sample_size →
        hapgen_get_haplotype h sample_id = .ok [] := by
  have hgen : ∀ (trees : List LocalTree) (m : List Nat),
      (∀ t ∈ trees, t.mutations = []) →
      hapgen_generate_all_haplotypes (ts.num_mutations / HG_WORD_SIZE + 1) trees m
        = .ok m := by
    intro trees
    induction trees with
    | nil => intro m _; rfl
    | cons t rest ih =>
      intro m hall
      unfold hapgen_generate_all_haplotypes
      rw [hall t (by simp), show applyTreeMutations t _ [] m = .ok m from rfl]
      exact ih m fun t' ht' => hall t' (by simp [ht'])
  refine ⟨⟨ts.sample_size, ts.num_mutations, ts.num_mutations / HG_WORD_SIZE + 1,
    List.replicate ((ts.num_mutations / HG_WORD_SIZE + 1) * ts.sample_size) 0⟩, ?_, ?_⟩
  · simp only [hapgen_alloc]
    rw [if_neg (by omega), hgen ts.trees _ hempty]
  · intro sample_id h0 hlt
    simp only [hapgen_get_haplotype]
    rw [if_neg (by simpa using not_le.mpr hlt)]
    simp [hzero]

/-- C9 witness: zero mutations but a three-record mutation-type table. -/
theorem zero_mutations_alloc_succeeds_witness :
    ∃ h, hapgen_alloc ⟨1, 0, 3, []⟩ = .ok h ∧
      ∀ sample_id : Int, 0 ≤ sample_id →
        sample_id < castNodeId (1 : Nat) →
        hapgen_get_haplotype h sample_id = .ok [] :=
  zero_mutations_alloc_succeeds ⟨1, 0, 3, []⟩ rfl (by simp)

/-- Whether sample `r` appears in the leaf list the tree reports for node
`n` (false also when the query fails, a case that makes the build fail). -/
def nodeLeafContains (tree : LocalTree) (n r : Nat) : Bool :=
  match tree.leafList n with
  | some ws => decide (r ∈ ws)
  | none => false

/-- The build-time occurrence predicate: some mutation with column `c` on
some local tree has sample `r` in the leaf list of one of its nodes. -/
def hgOccB (trees : List LocalTree) (r c : Nat) : Bool :=
  trees.any fun tree => tree.mutations.any fun mu =>
    decide (c = mu.index) && mu.nodes.any fun n => nodeLeafContains tree n r

lemma nodeLeafContains_eq_true {tree : LocalTree} {n r : Nat} :
    nodeLeafContains tree n r = true ↔
      ∃ ws, tree.leafList n = some ws ∧ r ∈ ws := by
  unfold nodeLeafContains
  split
  next ws heq => simp [heq]
  next heq => simp [heq]

lemma hgOccB_eq_true {trees : List LocalTree} {r c : Nat} :
    hgOccB trees r c = true ↔
      ∃ tree ∈ trees, ∃ mu ∈ tree.mutations, mu.index = c ∧
        ∃ n ∈ mu.nodes, ∃ ws, tree.leafList n = some ws ∧ r ∈ ws := by
  unfold hgOccB
  simp only [List.any_eq_true, Bool.and_eq_true, decide_eq_true_eq,
    nodeLeafContains_eq_true]
  constructor
  · rintro ⟨tree, ht, mu, hmu, hceq, n, hn, hws⟩
    exact ⟨tree, ht, mu, hmu, hceq.symm, n, hn, hws⟩
  · rintro ⟨tree, ht, mu, hmu, hceq, n, hn, hws⟩
    exact ⟨tree, ht, mu, hmu, hceq.symm, n, hn, hws⟩

lemma row_index_inj {wpr r s a b : Nat} (ha : a < wpr) (hb : b < wpr)
    (h : r * wpr + a = s * wpr + b) : r = s ∧ a = b := by
  have h1 : r = (r * wpr + a) / wpr := by
    rw [Nat.mul_comm r wpr, Nat.mul_add_div (by omega), Nat.div_eq_of_lt ha]
    omega
  have h2 : s = (s * wpr + b) / wpr := by
    rw [Nat.mul_comm s wpr, Nat.mul_add_div (by omega), Nat.div_eq_of_lt hb]
    omega
  have hrs : r = s := by rw [h1, h, ← h2]
  subst hrs
  exact ⟨rfl, by omega⟩

lemma row_index_lt {wpr S w d : Nat} (hw : w < S) (hd : d < wpr) :
    w * wpr + d < wpr * S := by
  calc w * wpr + d < w * wpr + wpr := by omega
    _ = (w + 1) * wpr := by ring
    _ ≤ S * wpr := Nat.mul_le_mul_right _ (by omega)
    _ = wpr * S := Nat.mul_comm _ _

lemma testBit_or_shift (w b k : Nat) :
    (w ||| 1 <<< b).testBit k = (w.testBit k || decide (b = k)) := by
  rw [Nat.testBit_or, Nat.shiftLeft_eq, one_mul, Nat.testBit_two_pow]

lemma hgBit_replicate_zero {len wpr r c : Nat} :
    hgBit (List.replicate len 0) wpr r c = false := by
  unfold hgBit
  rcases lt_or_le (r * wpr + c / HG_WORD_SIZE) len with hlt | hle
  · rw [List.getD_eq_getElem _ _ (by simpa using hlt)]
    simp
  · rw [List.getD_eq_default _ _ (by simpa using hle)]
    simp

lemma hapgen_set_bit_ok {m m' : List Nat} {wpr row col : Nat}
    (h : hapgen_set_bit m wpr row col = .ok m') :
    col / HG_WORD_SIZE < wpr ∧ hgBit m wpr row col = false ∧
    m' = m.set (row * wpr + col / HG_WORD_SIZE)
      ((m.getD (row * wpr + col / HG_WORD_SIZE) 0) |||
        (1 <<< (col % HG_WORD_SIZE))) := by
  simp only [hapgen_set_bit] at h
  split at h
  · exact absurd h (by simp)
  next hcol =>
    split at h
    next hbit => exact absurd h (by simp)
    next hbit =>
      refine ⟨by omega, ?_, (Except.ok.inj h).symm⟩
      simpa [hgBit] using hbit

lemma hapgen_set_bit_bits {m m' : List Nat} {wpr row col : Nat}
    (hlen : row * wpr + col / HG_WORD_SIZE < m.length)
    (h : hapgen_set_bit m wpr row col = .ok m') :
    ∀ r c, c / HG_WORD_SIZE < wpr →
      hgBit m' wpr r c
        = (hgBit m wpr r c || (decide (r = row) && decide (c = col))) := by
  obtain ⟨hcol, hold, hm'⟩ := hapgen_set_bit_ok h
  subst hm'
  intro r c hc
  by_cases hidx : r * wpr + c / HG_WORD_SIZE = row * wpr + col / HG_WORD_SIZE
  · obtain ⟨hr, hdiv⟩ := row_index_inj hc hcol hidx
    subst hr
    unfold hgBit
    rw [List.getD_eq_getElem?_getD, hidx, List.getElem?_set_eq_of_lt _ hlen,
      Option.getD_some, testBit_or_shift]
    by_cases hmod : c % HG_WORD_SIZE = col % HG_WORD_SIZE
    · have hceq : c = col := by
        have h1 := hdiv
        have h2 := hmod
        simp only [HG_WORD_SIZE] at h1 h2
        omega
      subst hceq
      simp
    · have hcne : c ≠ col := fun hh => hmod (by rw [hh])
      have hmod' : ¬ col % HG_WORD_SIZE = c % HG_WORD_SIZE := fun hh => hmod hh.symm
      simp [hmod', hcne]
  · have hne : ¬(r = row ∧ c = col) := fun hh => hidx (by rw [hh.1, hh.2])
    unfold hgBit
    rw [List.getD_eq_getElem?_getD,
      List.getElem?_set_ne (fun hh => hidx hh.symm),
      ← List.getD_eq_getElem?_getD]
    rcases Decidable.not_and_iff_or_not.mp hne with hh | hh <;> simp [hh]

lemma bool_merge_cons (a x y z : Bool) :
    ((a || (x && y)) || (y && z)) = (a || (y && (x || z))) := by
  cases a <;> cases x <;> cases y <;> cases z <;> rfl

lemma bool_merge_any (a y u v : Bool) :
    ((a || (y && u)) || (y && v)) = (a || (y && (u || v))) := by
  cases a <;> cases y <;> cases u <;> cases v <;> rfl

lemma decide_mem_cons {r w : Nat} {ws : List Nat} :
    decide (r ∈ w :: ws) = (decide (r = w) || decide (r ∈ ws)) := by
  simp [List.mem_cons]

lemma setLeafBits_bits {wpr col S : Nat} (hcol : col / HG_WORD_SIZE < wpr) :
    ∀ {ws : List Nat} {m m' : List Nat}, m.length = wpr * S →
      (∀ w ∈ ws, w < S) →
      setLeafBits wpr col ws m = .ok m' →
      m'.length = wpr * S ∧
      (∀ r c, c / HG_WORD_SIZE < wpr →
        hgBit m' wpr r c
          = (hgBit m wpr r c || (decide (c = col) && decide (r ∈ ws))))
  | [], m, m', hlen, _, h => by
    have hm : m = m' := by simpa [setLeafBits] using h
    subst hm
    exact ⟨hlen, fun r c _ => by simp⟩
  | w :: ws, m, m', hlen, hws, h => by
    simp only [setLeafBits] at h
    split at h
    · exact absurd h (by simp)
    next m₁ hs =>
      have hidx : w * wpr + col / HG_WORD_SIZE < m.length := by
        rw [hlen]; exact row_index_lt (hws w (by simp)) hcol
      have h1 := hapgen_set_bit_bits hidx hs
      have hlen₁ : m₁.length = wpr * S := (hapgen_set_bit_length hs).trans hlen
      obtain ⟨hlen', hrest⟩ :=
        setLeafBits_bits hcol hlen₁ (fun x hx => hws x (by simp [hx])) h
      refine ⟨hlen', fun r c hc => ?_⟩
      rw [hrest r c hc, h1 r c hc, decide_mem_cons]
      exact bool_merge_cons _ _ _ _

lemma applyNodes_bits {tree : LocalTree} {wpr col S : Nat}
    (hcol : col / HG_WORD_SIZE < wpr)
    (hleaf : ∀ n ws, tree.leafList n = some ws → ∀ w ∈ ws, w < S) :
    ∀ {ns : List Nat} {m m' : List Nat}, m.length = wpr * S →
      applyNodes tree wpr col ns m = .ok m' →
      m'.length = wpr * S ∧
      (∀ r c, c / HG_WORD_SIZE < wpr →
        hgBit m' wpr r c
          = (hgBit m wpr r c ||
              (decide (c = col) && ns.any fun n => nodeLeafContains tree n r)))
  | [], m, m', hlen, h => by
    have hm : m = m' := by simpa [applyNodes] using h
    subst hm
    exact ⟨hlen, fun r c _ => by simp⟩
  | n :: ns, m, m', hlen, h => by
    simp only [applyNodes] at h
    split at h
    · exact absurd h (by simp)
    next ws hl =>
      split at h
      · exact absurd h (by simp)
      next m₁ hs =>
        obtain ⟨hlen₁, h1⟩ := setLeafBits_bits hcol hlen (hleaf n ws hl) hs
        obtain ⟨hlen', hrest⟩ := applyNodes_bits hcol hleaf hlen₁ h
        refine ⟨hlen', fun r c hc => ?_⟩
        rw [hrest r c hc, h1 r c hc, List.any_cons]
        have hnlc : nodeLeafContains tree n r = decide (r ∈ ws) := by
          unfold nodeLeafContains
          rw [hl]
        rw [hnlc]
        exact bool_merge_any _ _ _ _

lemma applyTreeMutations_bits {tree : LocalTree} {wpr S : Nat}
    (hleaf : ∀ n ws, tree.leafList n = some ws → ∀ w ∈ ws, w < S) :
    ∀ {mus : List HgMutation} {m m' : List Nat},
      (∀ mu ∈ mus, mu.index / HG_WORD_SIZE < wpr) → m.length = wpr * S →
      applyTreeMutations tree wpr mus m = .ok m' →
      m'.length = wpr * S ∧
      (∀ r c, c / HG_WORD_SIZE < wpr →
        hgBit m' wpr r c
          = (hgBit m wpr r c ||
              mus.any fun mu => decide (c = mu.index) &&
                mu.nodes.any fun n => nodeLeafContains tree n r))
  | [], m, m', _, hlen, h => by
    have hm : m = m' := by simpa [applyTreeMutations] using h
    subst hm
    exact ⟨hlen, fun r c _ => by simp⟩
  | mu :: mus, m, m', hmus, hlen, h => by
    simp only [applyTreeMutations] at h
    split at h
    · exact absurd h (by simp)
    next m₁ hap =>
      obtain ⟨hlen₁, h1⟩ :=
        applyNodes_bits (hmus mu (by simp)) hleaf hlen hap
      obtain ⟨hlen', hrest⟩ :=
        applyTreeMutations_bits hleaf (fun x hx => hmus x (by simp [hx])) hlen₁ h
      refine ⟨hlen', fun r c hc => ?_⟩
      rw [hrest r c hc, h1 r c hc, List.any_cons, Bool.or_assoc]

lemma hapgen_generate_all_haplotypes_bits {wpr S : Nat} :
    ∀ {trees : List LocalTree} {m m' : List Nat},
      (∀ tree ∈ trees, ∀ n ws, tree.leafList n = some ws → ∀ w ∈ ws, w < S) →
      (∀ tree ∈ trees, ∀ mu ∈ tree.mutations, mu.index / HG_WORD_SIZE < wpr) →
      m.length = wpr * S →
      hapgen_generate_all_haplotypes wpr trees m = .ok m' →
      m'.length = wpr * S ∧
      (∀ r c, c / HG_WORD_SIZE < wpr →
        hgBit m' wpr r c = (hgBit m wpr r c || hgOccB trees r c))
  | [], m, m', _, _, hlen, h => by
    have hm : m = m' := by simpa [hapgen_generate_all_haplotypes] using h
    subst hm
    exact ⟨hlen, fun r c _ => by simp [hgOccB]⟩
  | t :: ts, m, m', hleaf, hmus, hlen, h => by
    simp only [hapgen_generate_all_haplotypes] at h
    split at h
    · exact absurd h (by simp)
    next m₁ hap =>
      obtain ⟨hlen₁, h1⟩ :=
        applyTreeMutations_bits (hleaf t (by simp))
          (hmus t (by simp)) hlen hap
      obtain ⟨hlen', hrest⟩ :=
        hapgen_generate_all_haplotypes_bits
          (fun x hx => hleaf x (by simp [hx]))
          (fun x hx => hmus x (by simp [hx])) hlen₁ h
      refine ⟨hlen', fun r c hc => ?_⟩
      rw [hrest r c hc, h1 r c hc, Bool.or_assoc]
      rfl

/-- A successful `hapgen_alloc` also determines the build equation for the
haplotype matrix. -/
lemma hapgen_alloc_generate {ts : TreeSeq} {h : hapgen_t}
    (ha : hapgen_alloc ts = .ok h) :
    hapgen_generate_all_haplotypes (ts.num_mutations / HG_WORD_SIZE + 1) ts.trees
        (List.replicate ((ts.num_mutations / HG_WORD_SIZE + 1) * ts.sample_size) 0)
      = .ok h.haplotype_matrix := by
  simp only [hapgen_alloc] at ha
  split at ha
  · exact absurd ha (by simp)
  · split at ha
    · exact absurd ha (by simp)
    next m hg =>
      cases Except.ok.inj ha
      exact hg

/-- The content of the built matrix: bit `(r, c)` for an in-range column is
set exactly when the build-time occurrence predicate holds. -/
lemma hapgen_alloc_bit {ts : TreeSeq} {h : hapgen_t}
    (ha : hapgen_alloc ts = .ok h)
    (hleaf : ∀ tree ∈ ts.trees, ∀ n ws, tree.leafList n = some ws →
      ∀ w ∈ ws, w < ts.sample_size)
    (hidx : ∀ tree ∈ ts.trees, ∀ mu ∈ tree.mutations,
      mu.index < ts.num_mutations) :
    ∀ r c, c < ts.num_mutations →
      hgBit h.haplotype_matrix h.words_per_row r c = hgOccB ts.trees r c := by
  obtain ⟨hss, hnm, hwpr, -⟩ := hapgen_alloc_ok ha
  have hg := hapgen_alloc_generate ha
  have hdiv : ∀ tree ∈ ts.trees, ∀ mu ∈ tree.mutations,
      mu.index / HG_WORD_SIZE < ts.num_mutations / HG_WORD_SIZE + 1 := by
    intro tree htree mu hmu
    have := hidx tree htree mu hmu
    have h2 : mu.index / HG_WORD_SIZE ≤ ts.num_mutations / HG_WORD_SIZE :=
      Nat.div_le_div_right (by omega)
    omega
  obtain ⟨-, hbits⟩ :=
    hapgen_generate_all_haplotypes_bits hleaf hdiv (by simp) hg
  intro r c hc
  have hcw : c / HG_WORD_SIZE < ts.num_mutations / HG_WORD_SIZE + 1 := by
    have := Nat.div_le_div_right (c := HG_WORD_SIZE) (Nat.le_of_lt hc)
    omega
  rw [hwpr, hbits r c hcw, hgBit_replicate_zero]
  simp

/-- C3: the round trip from a built generator back to haplotype strings.
For a tree sequence carrying `k` mutations (well-formed: every mutation's
column index below `k`, every leaf list within the sample range), every
in-range sample's haplotype is a `{0,1}` string of length exactly `k`, with
`'1'` at column `c` exactly when the sample is in the leaf set of a node of
the mutation at column `c` in the local tree carrying it, and `'0'`
everywhere else. -/
theorem haplotype_roundtrip (ts : TreeSeq) (h : hapgen_t)
    (ha : hapgen_alloc ts = .ok h)
    (hleaf : ∀ tree ∈ ts.trees, ∀ n ws, tree.leafList n = some ws →
      ∀ w ∈ ws, w < ts.sample_size)
    (hidx : ∀ tree ∈ ts.trees, ∀ mu ∈ tree.mutations,
      mu.index < ts.num_mutations)
    (hsmall : ts.sample_size < 2 ^ 31)
    (sid : Nat) (hsid : sid < ts.sample_size) :
    ∃ cs, hapgen_get_haplotype h (sid : Int) = .ok cs ∧
      cs.length = ts.num_mutations ∧
      (∀ ch ∈ cs, ch = '0' ∨ ch = '1') ∧
      (∀ k, k < ts.num_mutations →
        (cs.getD k '0' = '1' ↔
          ∃ tree ∈ ts.trees, ∃ mu ∈ tree.mutations, mu.index = k ∧
            ∃ n ∈ mu.nodes, ∃ ws, tree.leafList n = some ws ∧ sid ∈ ws)) := by
  obtain ⟨hss, hnm, hwpr, hmlen⟩ := hapgen_alloc_ok ha
  have hcast : castNodeId h.sample_size = (h.sample_size : Int) := by
    unfold castNodeId
    rw [Nat.mod_eq_of_lt (by omega)]
    rw [if_pos (by exact_mod_cast by omega)]
  have hne : ¬ ((sid : Int) ≥ castNodeId h.sample_size) := by
    rw [hcast, ge_iff_le, Int.not_le]
    exact_mod_cast (show sid < h.sample_size by omega)
  refine ⟨_, by simp only [hapgen_get_haplotype]; rw [if_neg hne], ?_, ?_, ?_⟩
  · have hlt : h.num_mutations ≤ h.words_per_row * HG_WORD_SIZE := by
      rw [hwpr, hnm]
      simp only [HG_WORD_SIZE]
      omega
    rw [List.length_take, List.length_map, List.length_range,
      Nat.min_eq_left hlt, hnm]
  · intro ch hch
    have hch' := List.mem_of_mem_take hch
    obtain ⟨l, -, hl⟩ := List.mem_map.mp hch'
    by_cases hb : (h.haplotype_matrix.getD
        (hapgen_word_index (sid : Int) h.words_per_row (l / HG_WORD_SIZE)) 0).testBit
          (l % HG_WORD_SIZE) = true
    · right; rw [← hl, if_pos hb]
    · left; rw [← hl, if_neg hb]
  · intro k hk
    have hkn : k < h.num_mutations := by omega
    have hkN : k < h.words_per_row * HG_WORD_SIZE := by
      rw [hwpr]
      simp only [HG_WORD_SIZE]
      omega
    have hwi : hapgen_word_index (sid : Int) h.words_per_row (k / HG_WORD_SIZE)
        = sid * h.words_per_row + k / HG_WORD_SIZE := by
      unfold hapgen_word_index
      have h1 : ((sid : Int) % (2 ^ 64 : Int)).toNat = sid := by omega
      rw [h1]
    have hgd : (List.take h.num_mutations
        ((List.range (h.words_per_row * HG_WORD_SIZE)).map fun l =>
          if (h.haplotype_matrix.getD
              (hapgen_word_index (sid : Int) h.words_per_row (l / HG_WORD_SIZE)) 0).testBit
                (l % HG_WORD_SIZE) = true then '1' else '0')).getD k '0'
        = if hgBit h.haplotype_matrix h.words_per_row sid k then '1' else '0' := by
      rw [List.getD_eq_getElem?_getD, List.getElem?_take, if_pos hkn,
        List.getElem?_map]
      rw [List.getElem?_range hkN]
      simp only [Option.map_some', Option.getD_some]
      rw [hwi]
      rfl
    rw [hgd]
    have hbit := hapgen_alloc_bit ha hleaf hidx sid k hk
    rw [hbit]
    constructor
    · intro h1
      apply hgOccB_eq_true.mp
      by_contra hb
      rw [Bool.not_eq_true] at hb
      rw [hb] at h1
      exact absurd h1 (by decide)
    · intro hocc
      rw [hgOccB_eq_true.mpr hocc]
      rfl

/-- C3 witness: two samples, one mutation at column 0 whose node's leaf list
is `[0]`; sample 0 decodes to the string `"1"`. -/
theorem haplotype_roundtrip_witness :
    ∃ cs, hapgen_get_haplotype ⟨2, 1, 1, [1, 0]⟩ ((0 : Nat) : Int) = .ok cs ∧
      cs.length = 1 ∧
      (∀ ch ∈ cs, ch = '0' ∨ ch = '1') ∧
      (∀ k, k < 1 →
        (cs.getD k '0' = '1' ↔
          ∃ tree ∈ ([⟨[⟨[0], 0⟩], fun _ => some [0]⟩] : List LocalTree),
            ∃ mu ∈ tree.mutations, mu.index = k ∧
              ∃ n ∈ mu.nodes, ∃ ws, tree.leafList n = some ws ∧ 0 ∈ ws)) := by
  refine haplotype_roundtrip ⟨2, 1, 1, [⟨[⟨[0], 0⟩], fun _ => some [0]⟩]⟩
    ⟨2, 1, 1, [1, 0]⟩ rfl ?_ ?_ (by decide) 0 (by decide)
  · intro tree htree n ws hws w hw
    simp only [List.mem_singleton] at htree
    subst htree
    simp only [Option.some.injEq] at hws
    subst hws
    have hw0 : w = 0 := by simpa using hw
    subst hw0
    decide
  · intro tree htree mu hmu
    simp only [List.mem_singleton] at htree
    subst htree
    simp only [List.mem_singleton] at hmu
    subst hmu
    decide

end Hapgen

namespace Mutgen

/-- The site rows `mutgen_populate_tables` emits for a site list. -/
def siteRowsOf (sites : List site_rec_t) : List site_row_t :=
  sites.map fun s => ⟨s.position, s.ancestral_state⟩

/-- The mutation rows `mutgen_populate_tables` emits for a site list whose
first site receives id `off`. -/
def mutRowsFrom (off : Nat) : List site_rec_t → List mutation_row_t
  | [] => []
  | s :: rest =>
    (s.mutations.map fun mu => ⟨off, mu.node, mu.parent, mu.derived_state⟩)
      ++ mutRowsFrom (off + 1) rest

/-- What holds of every site `branch_loop` inserts for the branch above
`child` spanning `[left, right)`: the position lies in the half-open
interval, and the states come from one entry of the alphabet's
mutation-type table, as a single root mutation. -/
def newSiteOk (mts : List mutation_type_t) (child : Int) (left right : ℚ)
    (s : site_rec_t) : Prop :=
  left ≤ s.position ∧ s.position < right ∧
  ∃ p ∈ mts, s.ancestral_state = p.ancestral_state ∧
    s.mutations = [⟨p.derived_state, child, MSP_NULL_MUTATION⟩]

lemma avl_search_false {sites : List site_rec_t} {p : ℚ}
    (h : avl_search sites p = false) : ∀ s ∈ sites, s.position ≠ p := by
  intro s hs
  simp only [avl_search, List.any_eq_false, decide_eq_true_eq] at h
  exact h s hs

lemma mem_avl_insert {s x : site_rec_t} :
    ∀ {l : List site_rec_t}, x ∈ avl_insert s l ↔ x = s ∨ x ∈ l
  | [] => by simp [avl_insert]
  | t :: ts => by
    simp only [avl_insert]
    split
    · simp [List.mem_cons]
    · simp only [List.mem_cons, mem_avl_insert (l := ts)]
      tauto

lemma pairwise_avl_insert {s : site_rec_t} :
    ∀ {l : List site_rec_t},
      List.Pairwise (fun a b : site_rec_t => a.position < b.position) l →
      (∀ t ∈ l, t.position ≠ s.position) →
      List.Pairwise (fun a b : site_rec_t => a.position < b.position)
        (avl_insert s l)
  | [], _, _ => by simp [avl_insert]
  | t :: ts, hp, hne => by
    simp only [avl_insert]
    rw [List.pairwise_cons] at hp
    obtain ⟨ht, hts⟩ := hp
    split
    next hlt =>
      refine List.Pairwise.cons ?_ (List.Pairwise.cons ht hts)
      intro x hx
      rcases List.mem_cons.mp hx with rfl | hx
      · exact hlt
      · exact lt_trans hlt (ht x hx)
    next hge =>
      have hlt' : t.position < s.position :=
        lt_of_le_of_ne (not_lt.mp hge) (hne t (by simp))
      refine List.Pairwise.cons ?_
        (pairwise_avl_insert hts (fun u hu => hne u (by simp [hu])))
      intro x hx
      rcases mem_avl_insert.mp hx with rfl | hx
      · exact hlt'
      · exact ht x hx

lemma rejection_sample_some {sites : List site_rec_t} :
    ∀ {ps : List ℚ} {p : ℚ} {ps' : List ℚ},
      rejection_sample sites ps = some (p, ps') → avl_search sites p = false
  | [], p, ps', h => by simp [rejection_sample] at h
  | q :: ps, p, ps', h => by
    simp only [rejection_sample] at h
    split at h
    · exact rejection_sample_some h
    next hq =>
      obtain ⟨rfl, rfl⟩ : q = p ∧ ps = ps' := by
        simpa [Prod.ext_iff] using Option.some.inj h
      simpa using hq

lemma list_getD_mem {α : Type} {l : List α} {i : Nat} {d : α}
    (h : i < l.length) : l.getD i d ∈ l := by
  rw [List.getD_eq_getElem _ _ h]
  exact List.getElem_mem h

lemma branch_loop_ok {mts : List mutation_type_t} {child : Int}
    {left right : ℚ} (hmts : mts ≠ []) :
    ∀ {n : Nat} {sites : List site_rec_t} {ps : List ℚ} {ts : List Nat}
      {sites' : List site_rec_t} {ps' : List ℚ} {ts' : List Nat},
      branch_loop mts child left right n sites ps ts = .ok (sites', ps', ts') →
      List.Pairwise (fun a b : site_rec_t => a.position < b.position) sites →
      List.Pairwise (fun a b : site_rec_t => a.position < b.position) sites' ∧
      ∀ s ∈ sites', s ∈ sites ∨ newSiteOk mts child left right s
  | 0, sites, ps, ts, sites', ps', ts', h, hp => by
    simp only [branch_loop, Except.ok.injEq, Prod.mk.injEq] at h
    obtain ⟨rfl, rfl, rfl⟩ := h
    exact ⟨hp, fun s hs => Or.inl hs⟩
  | n + 1, sites, ps, ts, sites', ps', ts', h, hp => by
    simp only [branch_loop] at h
    split at h
    · exact absurd h (by simp)
    next position ps₁ hrj =>
      split at h
      · exact absurd h (by simp)
      next hpos =>
        split at h
        · exact absurd h (by simp)
        next t ts₁ =>
          rw [not_not] at hpos
          have hfresh := avl_search_false (rejection_sample_some hrj)
          have hprmem : mts.getD (t % mts.length) ⟨'0', '0'⟩ ∈ mts :=
            list_getD_mem (Nat.mod_lt _ (by
              cases mts with
              | nil => exact absurd rfl hmts
              | cons a l => simp))
          have hp₁ : List.Pairwise
              (fun a b : site_rec_t => a.position < b.position)
              (mutgen_add_mutation sites child position
                (mts.getD (t % mts.length) ⟨'0', '0'⟩).ancestral_state
                (mts.getD (t % mts.length) ⟨'0', '0'⟩).derived_state) :=
            pairwise_avl_insert hp hfresh
          obtain ⟨hp', hmem⟩ := branch_loop_ok hmts h hp₁
          refine ⟨hp', fun s hs => ?_⟩
          rcases hmem s hs with hs' | hnew
          · rcases (mem_avl_insert
                (l := sites) (s := ⟨position,
                  (mts.getD (t % mts.length) ⟨'0', '0'⟩).ancestral_state,
                  [⟨(mts.getD (t % mts.length) ⟨'0', '0'⟩).derived_state,
                    child, MSP_NULL_MUTATION⟩]⟩)).mp hs' with rfl | hs''
            · exact Or.inr ⟨hpos.1, hpos.2,
                mts.getD (t % mts.length) ⟨'0', '0'⟩, hprmem, rfl, rfl⟩
            · exact Or.inl hs''
          · exact Or.inr hnew

lemma edge_loop_ok {mts : List mutation_type_t} {nodes : node_table_t}
    (hmts : mts ≠ []) :
    ∀ {edges : List edge_t} {counts : List Nat} {sites : List site_rec_t}
      {ps : List ℚ} {ts : List Nat} {sites' : List site_rec_t}
      {ps' : List ℚ} {ts' : List Nat},
      edge_loop mts nodes edges counts sites ps ts = .ok (sites', ps', ts') →
      List.Pairwise (fun a b : site_rec_t => a.position < b.position) sites →
      List.Pairwise (fun a b : site_rec_t => a.position < b.position) sites' ∧
      ∀ s ∈ sites', s ∈ sites ∨
        ∃ e ∈ edges, newSiteOk mts e.child e.left e.right s
  | [], counts, sites, ps, ts, sites', ps', ts', h, hp => by
    simp only [edge_loop, Except.ok.injEq, Prod.mk.injEq] at h
    obtain ⟨rfl, rfl, rfl⟩ := h
    exact ⟨hp, fun s hs => Or.inl hs⟩
  | e :: es, counts, sites, ps, ts, sites', ps', ts', h, hp => by
    simp only [edge_loop] at h
    split at h
    · exact absurd h (by simp)
    next hchild =>
      split at h
      · exact absurd h (by simp)
      next sites₁ ps₁ ts₁ hb =>
        obtain ⟨hp₁, hmem₁⟩ := branch_loop_ok hmts hb hp
        obtain ⟨hp', hmem⟩ := edge_loop_ok hmts h hp₁
        refine ⟨hp', fun s hs => ?_⟩
        rcases hmem s hs with hs₁ | ⟨e', he', hnew⟩
        · rcases hmem₁ s hs₁ with hs₀ | hnew
          · exact Or.inl hs₀
          · exact Or.inr ⟨e, by simp, hnew⟩
        · exact Or.inr ⟨e', by simp [he'], hnew⟩

lemma site_table_add_row_ok {t t' : site_table_t} {row : site_row_t}
    {id : Nat} (h : site_table_add_row t row = .ok (t', id)) :
    t'.rows = t.rows ++ [row] ∧ id = t.rows.length := by
  simp only [site_table_add_row] at h
  split at h
  · split at h
    · exact absurd h (by simp)
    · obtain ⟨rfl, rfl⟩ : ({ t with rows := t.rows ++ [row] } : site_table_t) = t'
          ∧ t.rows.length = id := by
        simpa [Prod.ext_iff] using Except.ok.inj h
      exact ⟨rfl, rfl⟩
  · obtain ⟨rfl, rfl⟩ : ({ t with rows := t.rows ++ [row] } : site_table_t) = t'
        ∧ t.rows.length = id := by
      simpa [Prod.ext_iff] using Except.ok.inj h
    exact ⟨rfl, rfl⟩

lemma mutation_table_add_row_ok {t t' : mutation_table_t}
    {row : mutation_row_t} (h : mutation_table_add_row t row = .ok t') :
    t'.rows = t.rows ++ [row] := by
  simp only [mutation_table_add_row] at h
  split at h
  · split at h
    · exact absurd h (by simp)
    · rw [← Except.ok.inj h]
  · rw [← Except.ok.inj h]

lemma addMutationRows_ok {site_id : Nat} :
    ∀ {mus : List mutation_rec_t} {mt mt' : mutation_table_t},
      addMutationRows site_id mt mus = (.ok (), mt') →
      mt'.rows = mt.rows ++
        mus.map fun mu => ⟨site_id, mu.node, mu.parent, mu.derived_state⟩
  | [], mt, mt', h => by
    obtain ⟨rfl⟩ : mt = mt' := by
      simpa [addMutationRows, Prod.ext_iff] using h
    simp
  | mu :: mus, mt, mt', h => by
    simp only [addMutationRows] at h
    split at h
    · exact absurd h (by simp [Prod.ext_iff])
    next mt₁ hadd =>
      rw [addMutationRows_ok h, mutation_table_add_row_ok hadd]
      simp

lemma addMutationRows_take {site_id : Nat} :
    ∀ {mus : List mutation_rec_t} {mt : mutation_table_t},
      ∃ j, j ≤ mus.length ∧
        (addMutationRows site_id mt mus).2.rows = mt.rows ++
          (mus.map fun mu =>
            (⟨site_id, mu.node, mu.parent, mu.derived_state⟩ :
              mutation_row_t)).take j
  | [], mt => ⟨0, by simp, by simp [addMutationRows]⟩
  | mu :: mus, mt => by
    simp only [addMutationRows]
    split
    · exact ⟨0, by simp, by simp⟩
    next mt₁ hadd =>
      obtain ⟨j, hj, hrows⟩ :=
        @addMutationRows_take site_id mus mt₁
      refine ⟨j + 1, by simpa using hj, ?_⟩
      rw [hrows, mutation_table_add_row_ok hadd]
      simp [List.take_succ_cons]

lemma mutgen_populate_tables_ok :
    ∀ {sites : List site_rec_t} {st : site_table_t} {mt : mutation_table_t}
      {st' : site_table_t} {mt' : mutation_table_t},
      mutgen_populate_tables st mt sites = (.ok (), st', mt') →
      st'.rows = st.rows ++ siteRowsOf sites ∧
      mt'.rows = mt.rows ++ mutRowsFrom st.rows.length sites
  | [], st, mt, st', mt', h => by
    obtain ⟨rfl, rfl⟩ : st = st' ∧ mt = mt' := by
      simpa [mutgen_populate_tables, Prod.ext_iff] using h
    simp [siteRowsOf, mutRowsFrom]
  | s :: rest, st, mt, st', mt', h => by
    simp only [mutgen_populate_tables] at h
    split at h
    · exact absurd h (by simp [Prod.ext_iff])
    next st₁ id hadd =>
      split at h
      · exact absurd h (by simp [Prod.ext_iff])
      next u mt₁ hmrows =>
        obtain ⟨hst₁, hid⟩ := site_table_add_row_ok hadd
        have hmt₁ := addMutationRows_ok hmrows
        obtain ⟨hk, hl⟩ := mutgen_populate_tables_ok h
        constructor
        · rw [hk, hst₁]
          simp [siteRowsOf]
        · rw [hl, hmt₁, hid, mutRowsFrom]
          have hlen : st₁.rows.length = st.rows.length + 1 := by
            rw [hst₁]; simp
          rw [hlen]
          simp

lemma mutgen_populate_tables_take :
    ∀ {sites : List site_rec_t} {st : site_table_t} {mt : mutation_table_t},
      ∃ k l,
        (mutgen_populate_tables st mt sites).2.1.rows
          = st.rows ++ (siteRowsOf sites).take k ∧
        (mutgen_populate_tables st mt sites).2.2.rows
          = mt.rows ++ (mutRowsFrom st.rows.length sites).take l
  | [], st, mt => ⟨0, 0, by simp [mutgen_populate_tables], by
      simp [mutgen_populate_tables]⟩
  | s :: rest, st, mt => by
    simp only [mutgen_populate_tables]
    split
    · exact ⟨0, 0, by simp, by simp⟩
    next st₁ id hadd =>
      obtain ⟨hst₁, hid⟩ := site_table_add_row_ok hadd
      split
      next e mt₁ hmrows =>
        obtain ⟨j, hj, hrows⟩ :=
          @addMutationRows_take id s.mutations mt
        rw [hmrows] at hrows
        refine ⟨1, j, ?_, ?_⟩
        · rw [hst₁]
          simp [siteRowsOf]
        · simp only at hrows
          rw [hrows, hid, mutRowsFrom]
          congr 1
          rw [List.take_append_of_le_length (by simpa using hj)]
      next u mt₁ hmrows =>
        have hmt₁ := addMutationRows_ok hmrows
        obtain ⟨k, l, hk, hl⟩ := @mutgen_populate_tables_take rest st₁ mt₁
        refine ⟨k + 1,
          (s.mutations.map fun mu =>
            (⟨st.rows.length, mu.node, mu.parent, mu.derived_state⟩ :
              mutation_row_t)).length + l, ?_, ?_⟩
        · rw [hk, hst₁]
          simp [siteRowsOf, List.take_succ_cons]
        · rw [hl, hmt₁, hid, mutRowsFrom]
          have hlen : st₁.rows.length = st.rows.length + 1 := by
            rw [hst₁]; simp
          rw [hlen, List.take_append]
          simp

lemma mutgen_populate_tables_fst_ok {sites : List site_rec_t}
    {st : site_table_t} {mt : mutation_table_t}
    (h : (mutgen_populate_tables st mt sites).1 = .ok ()) :
    (mutgen_populate_tables st mt sites).2.1.rows = st.rows ++ siteRowsOf sites ∧
    (mutgen_populate_tables st mt sites).2.2.rows
      = mt.rows ++ mutRowsFrom st.rows.length sites := by
  have heq : mutgen_populate_tables st mt sites
      = (.ok (), (mutgen_populate_tables st mt sites).2.1,
          (mutgen_populate_tables st mt sites).2.2) := by
    rw [← h]
  exact mutgen_populate_tables_ok heq

lemma mutRowsFrom_mem :
    ∀ {sites : List site_rec_t} {off : Nat} {mrow : mutation_row_t},
      mrow ∈ mutRowsFrom off sites →
      off ≤ mrow.site ∧ mrow.site < off + sites.length ∧
      ∃ mu ∈ (sites.getD (mrow.site - off) ⟨0, '0', []⟩).mutations,
        mrow.derived_state = mu.derived_state
  | [], off, mrow, h => by simp [mutRowsFrom] at h
  | s :: rest, off, mrow, h => by
    simp only [mutRowsFrom, List.mem_append] at h
    rcases h with h | h
    · obtain ⟨mu, hmu, rfl⟩ := List.mem_map.mp h
      exact ⟨le_refl _, by simp, mu, by simpa using hmu, rfl⟩
    · obtain ⟨h1, h2, mu, hmu, hder⟩ := mutRowsFrom_mem h
      refine ⟨by omega, by simp; omega, ?_⟩
      have hs : mrow.site - off = (mrow.site - (off + 1)) + 1 := by omega
      rw [hs]
      exact ⟨mu, by simpa using hmu, hder⟩

lemma siteRowsOf_getD {sites : List site_rec_t} {i : Nat}
    (h : i < sites.length) :
    (siteRowsOf sites).getD i ⟨0, '0'⟩
      = ⟨(sites.getD i ⟨0, '0', []⟩).position,
          (sites.getD i ⟨0, '0', []⟩).ancestral_state⟩ := by
  rw [siteRowsOf, List.getD_eq_getElem _ _ (by simpa using h),
    List.getElem_map, List.getD_eq_getElem _ _ h]

lemma acgt_distinct :
    ∀ p ∈ acgt_mutation_types, p.ancestral_state ≠ p.derived_state := by
  decide

/-- C1: for a genealogy meeting the preconditions (child indices within the
node table, `left < right`, every edge interval inside `[0, L)` for the
sequence length `L`), a successful `mutgen_generate` leaves the site table
with strictly increasing positions, no duplicate positions, and every
position inside `[0, L)`. -/
theorem mutgen_generate_sites_sorted (self : mutgen_t)
    (tables : table_collection_t) (draws : gen_draws_t) (L : ℚ)
    (hedges : ∀ e ∈ tables.edges, 0 ≤ e.child ∧
      e.child < (tables.nodes.time.length : Int) ∧ e.left < e.right ∧
      0 ≤ e.left ∧ e.right ≤ L)
    (hok : (mutgen_generate self tables draws).1 = .ok ()) :
    List.Pairwise (fun a b : site_row_t => a.position < b.position)
      (mutgen_generate self tables draws).2.1.rows ∧
    List.Pairwise (fun a b : site_row_t => a.position ≠ b.position)
      (mutgen_generate self tables draws).2.1.rows ∧
    ∀ row ∈ (mutgen_generate self tables draws).2.1.rows,
      0 ≤ row.position ∧ row.position < L := by
  have hmts : (if self.alphabet = 0 then binary_mutation_types
      else acgt_mutation_types) ≠ [] := by
    split <;> simp [binary_mutation_types, acgt_mutation_types]
  simp only [mutgen_generate] at hok ⊢
  split at hok
  next e heq => exact absurd hok (by simp)
  next x sites a b heq =>
    obtain ⟨hsrows, -⟩ := mutgen_populate_tables_fst_ok hok
    rw [show (site_table_clear tables.sites).rows = [] from rfl,
      List.nil_append] at hsrows
    obtain ⟨hpw, hmem⟩ := edge_loop_ok hmts heq List.Pairwise.nil
    refine ⟨?_, ?_, ?_⟩
    · rw [hsrows, siteRowsOf]
      exact List.pairwise_map.mpr hpw
    · rw [hsrows, siteRowsOf]
      exact List.pairwise_map.mpr (hpw.imp fun hlt => ne_of_lt hlt)
    · intro row hrow
      rw [hsrows] at hrow
      simp only [siteRowsOf, List.mem_map] at hrow
      obtain ⟨site, hsite, rfl⟩ := hrow
      rcases hmem site hsite with h0 | ⟨e, he, hnew⟩
      · exact absurd h0 (List.not_mem_nil site)
      · obtain ⟨-, -, -, hl0, hrL⟩ := hedges e he
        obtain ⟨hle, hlt, -⟩ := hnew
        exact ⟨le_trans hl0 hle, lt_of_lt_of_le hlt hrL⟩

/-- C1 witness: one edge over `[0, 4)` with two mutations drawn at positions
2 then 1; the emitted site table is sorted, duplicate-free and inside
`[0, 4)`. -/
theorem mutgen_generate_sites_sorted_witness :
    List.Pairwise (fun a b : site_row_t => a.position < b.position)
      (mutgen_generate ⟨0, 1, 8192⟩
        ⟨⟨[0, 1]⟩, [⟨0, 4, 1, 0⟩], ⟨[], none⟩, ⟨[], none⟩⟩
        ⟨[2], [2, 1], [0, 0]⟩).2.1.rows ∧
    List.Pairwise (fun a b : site_row_t => a.position ≠ b.position)
      (mutgen_generate ⟨0, 1, 8192⟩
        ⟨⟨[0, 1]⟩, [⟨0, 4, 1, 0⟩], ⟨[], none⟩, ⟨[], none⟩⟩
        ⟨[2], [2, 1], [0, 0]⟩).2.1.rows ∧
    ∀ row ∈ (mutgen_generate ⟨0, 1, 8192⟩
        ⟨⟨[0, 1]⟩, [⟨0, 4, 1, 0⟩], ⟨[], none⟩, ⟨[], none⟩⟩
        ⟨[2], [2, 1], [0, 0]⟩).2.1.rows,
      0 ≤ row.position ∧ row.position < 4 :=
  mutgen_generate_sites_sorted ⟨0, 1, 8192⟩
    ⟨⟨[0, 1]⟩, [⟨0, 4, 1, 0⟩], ⟨[], none⟩, ⟨[], none⟩⟩
    ⟨[2], [2, 1], [0, 0]⟩ 4 (by decide) (by rfl)

/-- C6: a successful `generate` with the binary alphabet emits only sites
with ancestral state `'0'` and mutations with derived state `'1'`; with the
nucleotide alphabet, every mutation row points at a valid site row and its
derived state differs from that site's ancestral state. -/
theorem mutgen_generate_alphabet_states (self : mutgen_t)
    (tables : table_collection_t) (draws : gen_draws_t)
    (hok : (mutgen_generate self tables draws).1 = .ok ()) :
    (self.alphabet = MSP_ALPHABET_BINARY →
      (∀ row ∈ (mutgen_generate self tables draws).2.1.rows,
        row.ancestral_state = '0') ∧
      (∀ mrow ∈ (mutgen_generate self tables draws).2.2.rows,
        mrow.derived_state = '1')) ∧
    (self.alphabet = MSP_ALPHABET_NUCLEOTIDE →
      ∀ mrow ∈ (mutgen_generate self tables draws).2.2.rows,
        mrow.site < (mutgen_generate self tables draws).2.1.rows.length ∧
        ((mutgen_generate self tables draws).2.1.rows.getD mrow.site
            ⟨0, '0'⟩).ancestral_state ≠ mrow.derived_state) := by
  simp only [mutgen_generate] at hok ⊢
  split at hok
  next e heq => exact absurd hok (by simp)
  next x sites a b heq =>
    obtain ⟨hsrows, hmrows⟩ := mutgen_populate_tables_fst_ok hok
    rw [show (site_table_clear tables.sites).rows = [] from rfl,
      List.nil_append] at hsrows
    rw [show (mutation_table_clear tables.mutations).rows = [] from rfl,
      show (site_table_clear tables.sites).rows.length = 0 from rfl,
      List.nil_append] at hmrows
    constructor
    · intro halpha
      rw [halpha] at heq
      simp only [MSP_ALPHABET_BINARY, if_true] at heq
      obtain ⟨-, hmem⟩ := edge_loop_ok
        (by simp [binary_mutation_types]) heq List.Pairwise.nil
      have hinv : ∀ site ∈ sites, site.ancestral_state = '0' ∧
          ∀ mu ∈ site.mutations, mu.derived_state = '1' := by
        intro site hsite
        rcases hmem site hsite with h0 | ⟨e, he, -, -, p, hp, hanc, hmuts⟩
        · exact absurd h0 (List.not_mem_nil site)
        · have hp' : p = ⟨'0', '1'⟩ := by
            simpa [binary_mutation_types] using hp
          subst hp'
          refine ⟨hanc, ?_⟩
          intro mu hmu
          rw [hmuts] at hmu
          simp only [List.mem_singleton] at hmu
          rw [hmu]
      constructor
      · intro row hrow
        rw [hsrows] at hrow
        simp only [siteRowsOf, List.mem_map] at hrow
        obtain ⟨site, hsite, rfl⟩ := hrow
        exact (hinv site hsite).1
      · intro mrow hmrow
        rw [hmrows] at hmrow
        obtain ⟨-, h2, mu, hmu, hder⟩ := mutRowsFrom_mem hmrow
        have hsmem : sites.getD (mrow.site - 0) ⟨0, '0', []⟩ ∈ sites :=
          list_getD_mem (by omega)
        rw [hder]
        exact (hinv _ hsmem).2 mu hmu
    · intro halpha
      rw [halpha] at heq
      rw [if_neg (by simp [MSP_ALPHABET_NUCLEOTIDE])] at heq
      obtain ⟨-, hmem⟩ := edge_loop_ok
        (by simp [acgt_mutation_types]) heq List.Pairwise.nil
      intro mrow hmrow
      rw [hmrows] at hmrow
      obtain ⟨-, h2, mu, hmu, hder⟩ := mutRowsFrom_mem hmrow
      have hlt : mrow.site < sites.length := by omega
      have hlen : (siteRowsOf sites).length = sites.length := by
        simp [siteRowsOf]
      constructor
      · rw [hsrows, hlen]
        exact hlt
      · rw [hsrows, siteRowsOf_getD hlt]
        simp only [Nat.sub_zero] at hmu
        have hsmem : sites.getD mrow.site ⟨0, '0', []⟩ ∈ sites :=
          list_getD_mem hlt
        rcases hmem _ hsmem with h0 | ⟨e, he, -, -, p, hp, hanc, hmuts⟩
        · exact absurd h0 (List.not_mem_nil _)
        · rw [hanc, hder]
          rw [hmuts] at hmu
          simp only [List.mem_singleton] at hmu
          rw [hmu]
          exact acgt_distinct p hp

/-- C6 witness: a binary run and a nucleotide run on one edge. -/
theorem mutgen_generate_alphabet_states_witness :
    ((∀ row ∈ (mutgen_generate ⟨0, 1, 8192⟩
        ⟨⟨[0, 1]⟩, [⟨0, 4, 1, 0⟩], ⟨[], none⟩, ⟨[], none⟩⟩
        ⟨[1], [2], [0]⟩).2.1.rows, row.ancestral_state = '0') ∧
      (∀ mrow ∈ (mutgen_generate ⟨0, 1, 8192⟩
        ⟨⟨[0, 1]⟩, [⟨0, 4, 1, 0⟩], ⟨[], none⟩, ⟨[], none⟩⟩
        ⟨[1], [2], [0]⟩).2.2.rows, mrow.derived_state = '1')) ∧
    (∀ mrow ∈ (mutgen_generate ⟨1, 1, 8192⟩
        ⟨⟨[0, 1]⟩, [⟨0, 4, 1, 0⟩], ⟨[], none⟩, ⟨[], none⟩⟩
        ⟨[1], [2], [0]⟩).2.2.rows,
      mrow.site < (mutgen_generate ⟨1, 1, 8192⟩
        ⟨⟨[0, 1]⟩, [⟨0, 4, 1, 0⟩], ⟨[], none⟩, ⟨[], none⟩⟩
        ⟨[1], [2], [0]⟩).2.1.rows.length ∧
      ((mutgen_generate ⟨1, 1, 8192⟩
        ⟨⟨[0, 1]⟩, [⟨0, 4, 1, 0⟩], ⟨[], none⟩, ⟨[], none⟩⟩
        ⟨[1], [2], [0]⟩).2.1.rows.getD mrow.site
          ⟨0, '0'⟩).ancestral_state ≠ mrow.derived_state) :=
  ⟨(mutgen_generate_alphabet_states ⟨0, 1, 8192⟩
      ⟨⟨[0, 1]⟩, [⟨0, 4, 1, 0⟩], ⟨[], none⟩, ⟨[], none⟩⟩
      ⟨[1], [2], [0]⟩ (by rfl)).1 rfl,
   (mutgen_generate_alphabet_states ⟨1, 1, 8192⟩
      ⟨⟨[0, 1]⟩, [⟨0, 4, 1, 0⟩], ⟨[], none⟩, ⟨[], none⟩⟩
      ⟨[1], [2], [0]⟩ (by rfl)).2 rfl⟩

/-- C10: `mutgen_generate` clears the output tables before placing anything,
so (a) its entire outcome — status and final tables — is independent of
whatever rows the output tables held before the call, and (b) on every
return, success or failure, the output tables hold a prefix of the current
call's emission (empty on early failure, possibly partial on a mid-populate
memory failure: generate is not atomic). -/
theorem mutgen_generate_clears_tables (self : mutgen_t) (draws : gen_draws_t) :
    (∀ t1 t2 : table_collection_t, t1.nodes = t2.nodes → t1.edges = t2.edges →
      t1.sites.max_rows = t2.sites.max_rows →
      t1.mutations.max_rows = t2.mutations.max_rows →
      mutgen_generate self t1 draws = mutgen_generate self t2 draws) ∧
    (∀ tables : table_collection_t, ∃ sites k l,
      (mutgen_generate self tables draws).2.1.rows
        = (siteRowsOf sites).take k ∧
      (mutgen_generate self tables draws).2.2.rows
        = (mutRowsFrom 0 sites).take l) := by
  constructor
  · intro t1 t2 hn he hs hm
    have h1 : site_table_clear t1.sites = site_table_clear t2.sites := by
      show site_table_t.mk [] t1.sites.max_rows
          = site_table_t.mk [] t2.sites.max_rows
      rw [hs]
    have h2 : mutation_table_clear t1.mutations
        = mutation_table_clear t2.mutations := by
      show mutation_table_t.mk [] t1.mutations.max_rows
          = mutation_table_t.mk [] t2.mutations.max_rows
      rw [hm]
    simp only [mutgen_generate]
    rw [h1, h2, hn, he]
  · intro tables
    cases heq : edge_loop
        (if self.alphabet = 0 then binary_mutation_types
          else acgt_mutation_types)
        tables.nodes tables.edges draws.branch_mutation_counts []
        draws.positions draws.types with
    | error e =>
      refine ⟨[], 0, 0, ?_, ?_⟩ <;>
        · simp only [mutgen_generate]
          rw [heq]
          simp [siteRowsOf, mutRowsFrom, site_table_clear, mutation_table_clear]
    | ok x =>
      obtain ⟨sites, ps, ts⟩ := x
      obtain ⟨k, l, hk, hl⟩ := @mutgen_populate_tables_take sites
        (site_table_clear tables.sites) (mutation_table_clear tables.mutations)
      refine ⟨sites, k, l, ?_, ?_⟩
      · simp only [mutgen_generate]
        rw [heq]
        simpa [site_table_clear] using hk
      · simp only [mutgen_generate]
        rw [heq]
        simpa [site_table_clear, mutation_table_clear] using hl

/-- C10 witness: stale rows in the incoming tables do not survive a call,
and a concrete call's output is a prefix of its own emission. -/
theorem mutgen_generate_clears_tables_witness :
    mutgen_generate ⟨0, 1, 8192⟩
      ⟨⟨[0, 1]⟩, [⟨0, 4, 1, 0⟩], ⟨[⟨99, 'X'⟩], none⟩, ⟨[⟨5, 3, 7, 'Z'⟩], none⟩⟩
      ⟨[1], [2], [0]⟩
      = mutgen_generate ⟨0, 1, 8192⟩
      ⟨⟨[0, 1]⟩, [⟨0, 4, 1, 0⟩], ⟨[], none⟩, ⟨[], none⟩⟩
      ⟨[1], [2], [0]⟩ ∧
    (∃ sites k l,
      (mutgen_generate ⟨0, 1, 8192⟩
        ⟨⟨[0, 1]⟩, [⟨0, 4, 1, 0⟩], ⟨[], none⟩, ⟨[], none⟩⟩
        ⟨[1], [2], [0]⟩).2.1.rows = (siteRowsOf sites).take k ∧
      (mutgen_generate ⟨0, 1, 8192⟩
        ⟨⟨[0, 1]⟩, [⟨0, 4, 1, 0⟩], ⟨[], none⟩, ⟨[], none⟩⟩
        ⟨[1], [2], [0]⟩).2.2.rows = (mutRowsFrom 0 sites).take l) :=
  ⟨(mutgen_generate_clears_tables ⟨0, 1, 8192⟩ ⟨[1], [2], [0]⟩).1
      ⟨⟨[0, 1]⟩, [⟨0, 4, 1, 0⟩], ⟨[⟨99, 'X'⟩], none⟩, ⟨[⟨5, 3, 7, 'Z'⟩], none⟩⟩
      ⟨⟨[0, 1]⟩, [⟨0, 4, 1, 0⟩], ⟨[], none⟩, ⟨[], none⟩⟩ rfl rfl rfl rfl,
   (mutgen_generate_clears_tables ⟨0, 1, 8192⟩ ⟨[1], [2], [0]⟩).2
      ⟨⟨[0, 1]⟩, [⟨0, 4, 1, 0⟩], ⟨[], none⟩, ⟨[], none⟩⟩⟩

/-- C5 counterexample: the AVL-version constructor called with a zero block
size succeeds (substituting the default 8192) instead of returning the
bad-parameter failure. -/
theorem mutgen_alloc_zero_block_succeeds :
    mutgen_alloc 1 MSP_ALPHABET_BINARY 0 = .ok ⟨MSP_ALPHABET_BINARY, 1, 8192⟩ := by
  rfl

/-- C5 (amended): the constructor treats a zero arena block size as
"unspecified" and succeeds with the default 8192 (a configured size is
floored at 128); a zero block size is rejected with the bad-parameter error
only by the table-based generator's separate setter
`mutgen_set_mutation_block_size`. -/
theorem zero_block_size_defaulted (rate : ℚ) (alphabet : Int)
    (halpha : alphabet = MSP_ALPHABET_BINARY ∨ alphabet = MSP_ALPHABET_NUCLEOTIDE) :
    mutgen_alloc rate alphabet 0 = .ok ⟨alphabet, rate, 8192⟩ ∧
    (∀ self : mutgen_v1_t,
      mutgen_set_mutation_block_size self 0 = .error .badParamValue) := by
  constructor
  · simp only [mutgen_alloc]
    rw [if_neg (not_not_intro halpha)]
    norm_num
  · intro self
    rfl

/-- C5 witness: the amended claim at the nucleotide alphabet. -/
theorem zero_block_size_defaulted_witness :
    mutgen_alloc 2 MSP_ALPHABET_NUCLEOTIDE 0 = .ok ⟨MSP_ALPHABET_NUCLEOTIDE, 2, 8192⟩ ∧
    (∀ self : mutgen_v1_t,
      mutgen_set_mutation_block_size self 0 = .error .badParamValue) :=
  zero_block_size_defaulted 2 MSP_ALPHABET_NUCLEOTIDE (Or.inr rfl)

end Mutgen
